import Mathlib

/-!
# Verification of the `entsoe` day-ahead price core

This file gives a shallow embedding, in Lean 4, of the two core components of
the `entsoe` crate:

* the windowed-extremum analyzer `find_cheapest_consecutive_hours` /
  `find_expensivest_consecutive_hours` of `src/bin/entsoe-ascii.rs`, and
* the event-driven XML decoder `parse_day_ahead_prices` of
  `src/parser/price_parser.rs`, together with the value types of
  `src/models/price.rs` and the error type of `src/error.rs`.

Embedding conventions:

* UTC instants (`chrono::DateTime<Utc>`) are embedded as `Int` nanoseconds
  since the Unix epoch; `chrono::Duration::minutes(m)` becomes addition of
  `m * 60 * 10^9` nanoseconds.
* `rust_decimal::Decimal` prices of the analyzer are embedded as exact
  rationals `ℚ`: the operations used (addition, subtraction, comparison,
  summation) are exact decimal arithmetic.
* `f64` prices of the decoder are embedded as `F64` below: an exact rational
  for finite values plus the special values produced by Rust's `f64` parser.
  IEEE rounding of parsed literals is idealized away (values are kept exact);
  no claim in this development depends on the numeric value of a price.
* The `quick_xml` reader is an external collaborator: the decoder is embedded
  at the level of the event stream (`Event::Start/End/Text/Eof/Err`) that the
  reader hands to the hand-written loop, so "an input byte buffer" becomes
  "a list of `XmlEvent`s".
-/

/-! ## The analyzer (`src/bin/entsoe-ascii.rs`)

`Period` is the analytics-local sample type (lines 25–29 of
`entsoe-ascii.rs`): a start timestamp and a price in cents.
-/

/-- Embedding of `Period` from `src/bin/entsoe-ascii.rs`: `start: DateTime<Utc>` (embedded
as `Int` nanoseconds since the epoch) and `price: Decimal` (embedded as an
exact rational). -/
structure Period where
  start : Int
  price : ℚ
deriving Repr, DecidableEq

/-- The price of `periods[i]`. In the Rust loop the index is always in
bounds; out-of-bounds access (which would panic in Rust) is given the
irrelevant default price `0`. -/
def priceAt (periods : List Period) (i : Nat) : ℚ :=
  (periods.getD i ⟨0, 0⟩).price

/-- The sliding-window loop shared by `find_cheapest_consecutive_hours`
(lines 94–101) and `find_expensivest_consecutive_hours` (lines 121–128) of
`src/bin/entsoe-ascii.rs`.  The state is `(best_index, best_sum,
current_sum)`; `i` is the Rust loop variable and `k` the number of remaining
iterations (`i` runs over `n, n+1, …, periods.len()-1`).  `better` is the
strict comparison used against the best-so-far: `<` in the cheapest search
and `>` in the expensivest search. -/
def slidingLoop (better : ℚ → ℚ → Bool) (price : Nat → ℚ) (n : Nat) :
    Nat → Nat → Nat × ℚ × ℚ → Nat × ℚ × ℚ
  | _, 0, st => st
  | i, k+1, (bi, bs, cs) =>
      let cs' := cs + price i - price (i - n)
      if better cs' bs then
        slidingLoop better price n (i+1) k (i + 1 - n, cs', cs')
      else
        slidingLoop better price n (i+1) k (bi, bs, cs')

/-- Embedding of `find_cheapest_consecutive_hours` from `src/bin/entsoe-ascii.rs`
(lines 79–104): returns `None` on an empty sequence, `n = 0`, or `n`
exceeding the length; otherwise slides an `n`-sample sum across the sequence
keeping the strictly smallest sum and its earliest starting index. -/
def find_cheapest_consecutive_hours (periods : List Period) (n : Nat) :
    Option (Nat × ℚ) :=
  if periods.isEmpty || n == 0 then none
  else if periods.length < n then none
  else
    let init : ℚ := ((periods.take n).map Period.price).sum
    let r := slidingLoop (fun a b => a < b) (priceAt periods) n
      n (periods.length - n) (0, init, init)
    some (r.1, r.2.1)

/-- Embedding of `find_expensivest_consecutive_hours` from `src/bin/entsoe-ascii.rs`
(lines 106–131): identical to the cheapest search except that the comparison
against the best-so-far is `>`. -/
def find_expensivest_consecutive_hours (periods : List Period) (n : Nat) :
    Option (Nat × ℚ) :=
  if periods.isEmpty || n == 0 then none
  else if periods.length < n then none
  else
    let init : ℚ := ((periods.take n).map Period.price).sum
    let r := slidingLoop (fun a b => a > b) (priceAt periods) n
      n (periods.length - n) (0, init, init)
    some (r.1, r.2.1)

/-- Total price of the contiguous window of `n` samples starting at index
`j` (the quantity the analyzer optimizes over). -/
def windowSum (periods : List Period) (n j : Nat) : ℚ :=
  (((periods.drop j).take n).map Period.price).sum

/-- Window sum expressed over an index function: the sum of
`price j, …, price (j+n-1)`. -/
def rangeSum (price : Nat → ℚ) (n j : Nat) : ℚ :=
  ((List.range' j n).map price).sum

/-- The sample sequence used by the spec's worked analyzer example:
prices `[5, 1, 2, 8, 3]`. -/
def examplePeriods : List Period :=
  [⟨0, 5⟩, ⟨1, 1⟩, ⟨2, 2⟩, ⟨3, 8⟩, ⟨4, 3⟩]

/-! ## Value types (`src/models/price.rs`, `src/error.rs`) -/

/-- Embedding of `Resolution` from `src/models/price.rs`: closed enumeration of the two
recognized resolution codes. -/
inductive Resolution where
  | PT15M
  | PT60M
deriving Repr, DecidableEq

/-- Embedding of `Resolution::parse` from `src/models/price.rs`: recognizes exactly the
code strings `"PT15M"` and `"PT60M"`; anything else yields no value. -/
def Resolution.parse (s : String) : Option Resolution :=
  if s = "PT15M" then some .PT15M
  else if s = "PT60M" then some .PT60M
  else none

/-- Embedding of `Resolution::minutes` from `src/models/price.rs`. -/
def Resolution.minutes : Resolution → Int
  | .PT15M => 15
  | .PT60M => 60

/-- The value space of Rust's `f64` parser, idealized: finite values are
kept as exact rationals (IEEE rounding and overflow-to-infinity are not
modelled), and the special values `inf`/`-inf`/`NaN` that
`str::parse::<f64>()` also accepts are explicit constructors. -/
inductive F64 where
  | finite (q : ℚ)
  | inf
  | negInf
  | nan
deriving Repr, DecidableEq

/-- Embedding of `PricePoint` from `src/models/price.rs`: a UTC instant (as `Int`
nanoseconds since the epoch) and an `f64` price in EUR/MWh. -/
structure PricePoint where
  timestamp : Int
  price : F64
deriving Repr, DecidableEq

/-- Embedding of `PriceDocument` from `src/models/price.rs`. -/
structure PriceDocument where
  currency : String
  resolution : Resolution
  period_start : Int
  period_end : Int
  prices : List PricePoint
deriving Repr, DecidableEq

/-- Embedding of `EntsoeError` from `src/error.rs`.  Variants carrying foreign error
types (`reqwest::Error`, `url::ParseError`) are embedded with their display
strings. -/
inductive EntsoeError where
  | Http (msg : String)
  | UrlError (msg : String)
  | InvalidBiddingZone (code : String)
  | InvalidTimeRange (msg : String)
  | ApiError (msg : String)
  | XmlParseError (msg : String)
  | MissingField (name : String)
deriving Repr, DecidableEq

/-! ## Primitive text parsers

These embed the library parsing functions the decoder calls:
`str::parse::<u32>()`, `str::parse::<f64>()` and
`chrono::DateTime::parse_from_rfc3339` followed by `with_timezone(&Utc)`.
-/

/-- Numeric value of a digit string (callers must have checked
`Char.isDigit` on every character). -/
def digitsToNat (l : List Char) : Nat :=
  l.foldl (fun a c => a * 10 + (c.toNat - 48)) 0

/-- Embedding of `str::parse::<u32>()`: an optional leading `+`, then one or more ASCII
digits, with the value required to fit in 32 bits (Rust fails with an
overflow error otherwise). -/
def parseU32 (s : String) : Option Nat :=
  let cs := match s.data with
    | '+' :: rest => rest
    | cs => cs
  if cs ≠ [] ∧ cs.all Char.isDigit then
    if digitsToNat cs < 4294967296 then some (digitsToNat cs) else none
  else none

/-- The exponent suffix of an `f64` literal: empty, or `e`/`E`, an optional
sign, and one or more digits. -/
def applyExponent (mant : ℚ) : List Char → Option ℚ
  | [] => some mant
  | e :: rs =>
      if e = 'e' ∨ e = 'E' then
        let (pos, ds) : Bool × List Char := match rs with
          | '+' :: t => (true, t)
          | '-' :: t => (false, t)
          | t => (true, t)
        if ds ≠ [] ∧ ds.all Char.isDigit then
          if pos then some (mant * 10 ^ digitsToNat ds)
          else some (mant / 10 ^ digitsToNat ds)
        else none
      else none

/-- The unsigned decimal body of an `f64` literal: digits, optionally a
point and more digits (at least one digit in total), then an optional
exponent. -/
def parseDecimalBody (cs : List Char) : Option ℚ :=
  let ip := cs.takeWhile Char.isDigit
  let rest := cs.dropWhile Char.isDigit
  match rest with
  | '.' :: rs =>
      let fp := rs.takeWhile Char.isDigit
      let rest2 := rs.dropWhile Char.isDigit
      if ip.length + fp.length = 0 then none
      else applyExponent ((digitsToNat (ip ++ fp) : ℚ) / 10 ^ fp.length) rest2
  | _ =>
      if ip = [] then none
      else applyExponent (digitsToNat ip : ℚ) rest

/-- Embedding of `str::parse::<f64>()`: optional sign, then `inf`/`infinity`/`nan`
(case-insensitive) or a decimal literal with optional fraction and
exponent. -/
def parseF64 (s : String) : Option F64 :=
  let (neg, cs) : Bool × List Char := match s.data with
    | '+' :: t => (false, t)
    | '-' :: t => (true, t)
    | t => (false, t)
  let lower := cs.map Char.toLower
  if lower = "inf".data ∨ lower = "infinity".data then
    some (if neg then .negInf else .inf)
  else if lower = "nan".data then some .nan
  else
    match parseDecimalBody cs with
    | some q => some (.finite (if neg then -q else q))
    | none => none

/-- Leap-year predicate of the proleptic Gregorian calendar. -/
def isLeapYear (y : Int) : Bool :=
  (y % 4 == 0 && y % 100 != 0) || y % 400 == 0

/-- Number of days in month `m` of year `y`. -/
def daysInMonth (y : Int) (m : Nat) : Nat :=
  if m = 2 then (if isLeapYear y then 29 else 28)
  else if m = 4 ∨ m = 6 ∨ m = 9 ∨ m = 11 then 30
  else 31

/-- Days from the epoch 1970-01-01 to the civil date `y-m-d` (proleptic
Gregorian, Hinnant's `days_from_civil` algorithm, as used by `chrono`'s
internal date arithmetic). -/
def daysFromCivil (y : Int) (m d : Nat) : Int :=
  let yAdj : Int := if m ≤ 2 then y - 1 else y
  let era : Int := Int.fdiv yAdj 400
  let yoe : Int := yAdj - era * 400
  let mp : Int := if m ≤ 2 then (m : Int) + 9 else (m : Int) - 3
  let doy : Int := (153 * mp + 2) / 5 + (d : Int) - 1
  let doe : Int := yoe * 365 + yoe / 4 - yoe / 100 + doy
  era * 146097 + doe - 719468

/-- The fractional-second suffix: empty, or a point followed by one to nine
digits, valued in nanoseconds.  Returns the value and the remaining
characters. -/
def parseFracNanos : List Char → Option (Nat × List Char)
  | '.' :: rs =>
      let ds := rs.takeWhile Char.isDigit
      if 1 ≤ ds.length ∧ ds.length ≤ 9 then
        some (digitsToNat ds * 10 ^ (9 - ds.length), rs.dropWhile Char.isDigit)
      else none
  | rs => some (0, rs)

/-- The timezone designator closing an RFC 3339 instant: `Z`/`z`, or a
signed `HH:MM` offset.  Returns the offset east of UTC in seconds. -/
def parseTzOffset : List Char → Option Int
  | ['Z'] => some 0
  | ['z'] => some 0
  | [sg, h1, h2, ':', m1, m2] =>
      if (sg = '+' ∨ sg = '-') ∧ [h1, h2, m1, m2].all Char.isDigit then
        let oh := digitsToNat [h1, h2]
        let om := digitsToNat [m1, m2]
        if oh ≤ 23 ∧ om ≤ 59 then
          some ((if sg = '+' then 1 else -1) * ((oh : Int) * 3600 + om * 60))
        else none
      else none
  | _ => none

/-- Embedding of `chrono::DateTime::parse_from_rfc3339` followed by
`with_timezone(&Utc)`, embedded as `Int` nanoseconds since the Unix epoch:
`YYYY-MM-DDTHH:MM:SS[.frac](Z|±HH:MM)` with field-range validation (leap
seconds are not modelled). -/
def parseRfc3339 (s : String) : Option Int :=
  match s.data with
  | y1 :: y2 :: y3 :: y4 :: '-' :: mo1 :: mo2 :: '-' :: d1 :: d2 :: t ::
      h1 :: h2 :: ':' :: mi1 :: mi2 :: ':' :: s1 :: s2 :: rest =>
      if ([y1, y2, y3, y4, mo1, mo2, d1, d2, h1, h2, mi1, mi2, s1, s2].all
            Char.isDigit) ∧ (t = 'T' ∨ t = 't') then
        let y := digitsToNat [y1, y2, y3, y4]
        let mo := digitsToNat [mo1, mo2]
        let d := digitsToNat [d1, d2]
        let hh := digitsToNat [h1, h2]
        let mi := digitsToNat [mi1, mi2]
        let ss := digitsToNat [s1, s2]
        if 1 ≤ mo ∧ mo ≤ 12 ∧ 1 ≤ d ∧ d ≤ daysInMonth y mo ∧
            hh ≤ 23 ∧ mi ≤ 59 ∧ ss ≤ 59 then
          match parseFracNanos rest with
          | some (fracNs, rest') =>
              match parseTzOffset rest' with
              | some off =>
                  some ((daysFromCivil y mo d * 86400 +
                    hh * 3600 + mi * 60 + ss - off) * 1000000000 + fracNs)
              | none => none
          | none => none
        else none
      else none
  | _ => none

/-- Embedding of `chrono::Duration::minutes(m)` added to an instant, in nanoseconds. -/
def addMinutes (t : Int) (m : Int) : Int :=
  t + m * 60000000000

/-! ## The decoder (`src/parser/price_parser.rs`)

The `quick_xml::Reader` is an external collaborator; the decoder is
embedded at the level of the events it produces.  `Event::Eof` is the end
of the list; a `Text` event whose bytes are not valid UTF-8 is `badText`
(the decoder turns it into an error itself, line 71–72); a reader error is
`err`; all event kinds the loop ignores (`Empty`, `Comment`, `CData`,
`Decl`, `PI`, `DocType`) are `other`. -/

inductive XmlEvent where
  | start (name : String)
  | endTag (name : String)
  | text (s : String)
  | badText (msg : String)
  | err (msg : String)
  | other
deriving Repr, DecidableEq

/-- The mutable locals of `parse_day_ahead_prices`
(`src/parser/price_parser.rs` lines 12–27), threaded as explicit fold
state. -/
structure ParserState where
  currency : Option String := none
  resolution : Option Resolution := none
  period_start : Option Int := none
  period_end : Option Int := none
  all_points : List (Int × Nat × F64) := []
  in_time_series : Bool := false
  in_period : Bool := false
  in_point : Bool := false
  in_time_interval : Bool := false
  current_period_start : Option Int := none
  current_position : Option Nat := none
  current_price : Option F64 := none
  current_tag : String := ""
deriving Repr, DecidableEq

/-- The initial state of the scan. -/
def initState : ParserState := {}

/-- The whitespace class used by `str::trim` (restricted to the ASCII
whitespace characters; the exotic Unicode whitespace Rust also trims does
not occur in this format). -/
def isRustWhitespace (c : Char) : Bool :=
  c = ' ' || c = '\t' || c = '\n' || c = '\r'

/-- Embedding of `str::trim`: remove leading and trailing whitespace. -/
def rustTrim (s : String) : String :=
  ⟨((s.data.dropWhile isRustWhitespace).reverse.dropWhile isRustWhitespace).reverse⟩

/-- Embedding of `str::trim_end_matches('Z')`: remove every trailing `'Z'`. -/
def trimTrailingZ (s : String) : String :=
  ⟨(s.data.reverse.dropWhile (· = 'Z')).reverse⟩

/-- The seconds normalization of the `"start"`/`"end"` text handlers
(`src/parser/price_parser.rs` lines 91–96 and 108–113): when the text has
no colon or exactly one colon, strip trailing `Z`s and append `":00"` and
`"Z"`; otherwise keep the text unchanged. -/
def normalizeInstantText (s : String) : String :=
  if ¬ (s.data.contains ':') ∨ s.data.count ':' = 1 then
    trimTrailingZ s ++ ":00" ++ "Z"
  else s

/-- Instant parsing as the decoder performs it: seconds normalization, then
RFC 3339 parsing, then conversion to UTC (lines 91–99 / 108–116). -/
def parseInstant (text : String) : Option Int :=
  parseRfc3339 (normalizeInstantText text)

/-- The `Event::Start` arm (lines 32–46): record the tag name and set the
context flag of the four recognized elements (guarded by the enclosing
context, as in the source's match guards). -/
def stepStart (st : ParserState) (name : String) : ParserState :=
  let st := { st with current_tag := name }
  if name = "TimeSeries" then { st with in_time_series := true }
  else if name = "Period" then
    (if st.in_time_series then
      { st with in_period := true, current_period_start := none }
     else st)
  else if name = "Point" then
    (if st.in_period then { st with in_point := true } else st)
  else if name = "timeInterval" then
    (if st.in_period then { st with in_time_interval := true } else st)
  else st

/-- The `Event::End` arm (lines 47–69): clear context flags; on `</Point>`,
emit the accumulated sample if position, price and the Period's anchor are
all known, then reset the per-point state; finally clear the tag name. -/
def stepEnd (st : ParserState) (name : String) : ParserState :=
  let st1 :=
    if name = "TimeSeries" then { st with in_time_series := false }
    else if name = "Period" then { st with in_period := false, in_time_interval := false }
    else if name = "Point" then
      let pushed :=
        match st.current_position, st.current_price, st.current_period_start with
        | some pos, some price, some start =>
            { st with all_points := st.all_points ++ [(start, pos, price)] }
        | _, _, _ => st
      { pushed with current_position := none, current_price := none, in_point := false }
    else if name = "timeInterval" then { st with in_time_interval := false }
    else st
  { st1 with current_tag := "" }

/-- The `Event::Text` arm (lines 70–131): trim the text, skip it when
empty, and dispatch on the current tag name under the source's context
guards. -/
def stepText (st : ParserState) (raw : String) : ParserState :=
  let text := rustTrim raw
  if text = "" then st
  else if st.current_tag = "currency_Unit.name" then
    (if st.in_time_series then
      (if st.currency = none then { st with currency := some text } else st)
     else st)
  else if st.current_tag = "resolution" then
    (if st.in_period then
      (if st.resolution = none then { st with resolution := Resolution.parse text } else st)
     else st)
  else if st.current_tag = "start" then
    (if st.in_time_interval ∧ st.in_period then
      let dt := parseInstant text
      let st' := { st with current_period_start := dt }
      match dt with
      | some d =>
          (match st'.period_start with
           | none => { st' with period_start := some d }
           | some p => if p > d then { st' with period_start := some d } else st')
      | none => st'
     else st)
  else if st.current_tag = "end" then
    (if st.in_time_interval ∧ st.in_period then
      match parseInstant text with
      | some d =>
          (match st.period_end with
           | none => { st with period_end := some d }
           | some p => if p < d then { st with period_end := some d } else st)
      | none => st
     else st)
  else if st.current_tag = "position" then
    (if st.in_point then { st with current_position := parseU32 text } else st)
  else if st.current_tag = "price.amount" then
    (if st.in_point then { st with current_price := parseF64 text } else st)
  else st

/-- One iteration of the event loop (lines 30–142). -/
def stepEvent (st : ParserState) : XmlEvent → Except EntsoeError ParserState
  | .start name => .ok (stepStart st name)
  | .endTag name => .ok (stepEnd st name)
  | .text raw => .ok (stepText st raw)
  | .badText msg => .error (.XmlParseError ("Invalid UTF-8: " ++ msg))
  | .err msg => .error (.XmlParseError ("XML parsing error: " ++ msg))
  | .other => .ok st

/-- The whole scan loop: fold `stepEvent` over the event stream, aborting
on the first error; the end of the list is `Event::Eof`. -/
def scanEvents : ParserState → List XmlEvent → Except EntsoeError ParserState
  | st, [] => .ok st
  | st, ev :: rest =>
      match stepEvent st ev with
      | .ok st' => scanEvents st' rest
      | .error e => .error e

/-- Finalization (lines 144–177): require the four summary fields, fail on
an empty sample list, reconstruct each sample's timestamp as
`anchor + (position - 1) × resolution minutes`, and sort by timestamp
(`sort_by_key`, a stable sort, embedded as `List.mergeSort`). -/
def finalize (st : ParserState) : Except EntsoeError PriceDocument :=
  match st.currency with
  | none => .error (.MissingField "currency_Unit.name")
  | some currency =>
    match st.resolution with
    | none => .error (.MissingField "resolution")
    | some resolution =>
      match st.period_start with
      | none => .error (.MissingField "period start")
      | some period_start =>
        match st.period_end with
        | none => .error (.MissingField "period end")
        | some period_end =>
          if st.all_points = [] then
            .error (.XmlParseError "No price points found")
          else
            let prices := st.all_points.map (fun p =>
              { timestamp := addMinutes p.1 ((p.2.1 - 1) * resolution.minutes),
                price := p.2.2 : PricePoint })
            .ok { currency := currency, resolution := resolution,
                  period_start := period_start, period_end := period_end,
                  prices := prices.mergeSort (fun p q => p.timestamp ≤ q.timestamp) }

/-- Embedding of `parse_day_ahead_prices` (`src/parser/price_parser.rs` lines 8–177),
embedded over the reader's event stream. -/
def parse_day_ahead_prices (events : List XmlEvent) : Except EntsoeError PriceDocument :=
  match scanEvents initState events with
  | .ok st => finalize st
  | .error e => .error e

instance {ε α : Type} [DecidableEq ε] [DecidableEq α] : DecidableEq (Except ε α) := fun x y =>
  match x, y with
  | .ok a, .ok b =>
      match decEq a b with
      | isTrue h => isTrue (h ▸ rfl)
      | isFalse h => isFalse (fun hc => h (Except.ok.inj hc))
  | .error e, .error f =>
      match decEq e f with
      | isTrue h => isTrue (h ▸ rfl)
      | isFalse h => isFalse (fun hc => h (Except.error.inj hc))
  | .ok _, .error _ => isFalse (fun hc => Except.noConfusion hc)
  | .error _, .ok _ => isFalse (fun hc => Except.noConfusion hc)

unseal List.merge List.mergeSort

/-- The event stream of a well-formed single-Period, single-Point document:
currency EUR, resolution PT15M, time interval 2024-01-15 to 2024-01-16
(instants without a seconds component), one sample at position 5 priced
50. -/
def evsOK : List XmlEvent :=
  [.start "TimeSeries", .start "currency_Unit.name", .text "EUR", .endTag "currency_Unit.name",
   .start "Period", .start "resolution", .text "PT15M", .endTag "resolution",
   .start "timeInterval", .start "start", .text "2024-01-15T00:00Z", .endTag "start",
   .start "end", .text "2024-01-16T00:00Z", .endTag "end", .endTag "timeInterval",
   .start "Point", .start "position", .text "5", .endTag "position",
   .start "price.amount", .text "50", .endTag "price.amount", .endTag "Point",
   .endTag "Period", .endTag "TimeSeries"]

/-- The document decoded from `evsOK`: position 5 at 15-minute resolution
lands at 2024-01-15T01:00:00Z. -/
def docOK : PriceDocument :=
  { currency := "EUR", resolution := .PT15M,
    period_start := 1705276800000000000, period_end := 1705363200000000000,
    prices := [⟨1705280400000000000, .finite 50⟩] }

/-- The event stream of `<root></root>`. -/
def rootEvents : List XmlEvent :=
  [.start "root", .endTag "root"]

/-- Like `evsOK` but with no Point elements at all. -/
def evsNoPoints : List XmlEvent :=
  [.start "TimeSeries", .start "currency_Unit.name", .text "EUR", .endTag "currency_Unit.name",
   .start "Period", .start "resolution", .text "PT15M", .endTag "resolution",
   .start "timeInterval", .start "start", .text "2024-01-15T00:00Z", .endTag "start",
   .start "end", .text "2024-01-16T00:00Z", .endTag "end", .endTag "timeInterval",
   .endTag "Period", .endTag "TimeSeries"]

/-- The scan state reached at the end of `evsNoPoints`. -/
def stNoPoints : ParserState :=
  { currency := some "EUR", resolution := some .PT15M,
    period_start := some 1705276800000000000,
    period_end := some 1705363200000000000,
    all_points := [],
    current_period_start := some 1705276800000000000 }

/-- Like `evsOK` but with the same Point (position 1, price 50) repeated
twice, producing two samples with identical timestamps. -/
def evsDup : List XmlEvent :=
  [.start "TimeSeries", .start "currency_Unit.name", .text "EUR", .endTag "currency_Unit.name",
   .start "Period", .start "resolution", .text "PT15M", .endTag "resolution",
   .start "timeInterval", .start "start", .text "2024-01-15T00:00Z", .endTag "start",
   .start "end", .text "2024-01-16T00:00Z", .endTag "end", .endTag "timeInterval",
   .start "Point", .start "position", .text "1", .endTag "position",
   .start "price.amount", .text "50", .endTag "price.amount", .endTag "Point",
   .start "Point", .start "position", .text "1", .endTag "position",
   .start "price.amount", .text "50", .endTag "price.amount", .endTag "Point",
   .endTag "Period", .endTag "TimeSeries"]

/-- The document decoded from `evsDup`: two price points with the same
timestamp. -/
def docDup : PriceDocument :=
  { currency := "EUR", resolution := .PT15M,
    period_start := 1705276800000000000, period_end := 1705363200000000000,
    prices := [⟨1705276800000000000, .finite 50⟩, ⟨1705276800000000000, .finite 50⟩] }

/-- The start instants the scan observes in an event: a nonempty trimmed
text under a `"start"` tag inside a Period's timeInterval that parses as an
instant (the spec's "observed time-interval start instants"). -/
def startEmissions (st : ParserState) (ev : XmlEvent) : List Int :=
  match ev with
  | .text raw =>
      let text := rustTrim raw
      if text = "" then []
      else if st.current_tag = "start" ∧ st.in_time_interval ∧ st.in_period then
        match parseInstant text with
        | some d => [d]
        | none => []
      else []
  | _ => []

/-- The end instants the scan observes in an event. -/
def endEmissions (st : ParserState) (ev : XmlEvent) : List Int :=
  match ev with
  | .text raw =>
      let text := rustTrim raw
      if text = "" then []
      else if st.current_tag = "end" ∧ st.in_time_interval ∧ st.in_period then
        match parseInstant text with
        | some d => [d]
        | none => []
      else []
  | _ => []

/-- All start instants observed while scanning an event stream from a given
state (the scan stops at the first erroneous event, as the loop does). -/
def collectStarts : ParserState → List XmlEvent → List Int
  | _, [] => []
  | st, ev :: rest =>
      startEmissions st ev ++
        (match stepEvent st ev with
         | .ok st' => collectStarts st' rest
         | .error _ => [])

/-- All end instants observed while scanning an event stream from a given
state. -/
def collectEnds : ParserState → List XmlEvent → List Int
  | _, [] => []
  | st, ev :: rest =>
      endEmissions st ev ++
        (match stepEvent st ev with
         | .ok st' => collectEnds st' rest
         | .error _ => [])

/-- The decoder's running minimum (`period_start.is_none() ||
period_start.unwrap() > dt_val`), folded over a list of observations. -/
def runMin (o : Option Int) (l : List Int) : Option Int :=
  l.foldl (fun acc d =>
    match acc with
    | none => some d
    | some p => if p > d then some d else some p) o

/-- The decoder's running maximum (`period_end.is_none() ||
period_end.unwrap() < dt_val`), folded over a list of observations. -/
def runMax (o : Option Int) (l : List Int) : Option Int :=
  l.foldl (fun acc d =>
    match acc with
    | none => some d
    | some p => if p < d then some d else some p) o

/-- Like `evsOK` but with the interval's end instant equal to its start
instant. -/
def evsEq : List XmlEvent :=
  [.start "TimeSeries", .start "currency_Unit.name", .text "EUR", .endTag "currency_Unit.name",
   .start "Period", .start "resolution", .text "PT15M", .endTag "resolution",
   .start "timeInterval", .start "start", .text "2024-01-15T00:00Z", .endTag "start",
   .start "end", .text "2024-01-15T00:00Z", .endTag "end", .endTag "timeInterval",
   .start "Point", .start "position", .text "5", .endTag "position",
   .start "price.amount", .text "50", .endTag "price.amount", .endTag "Point",
   .endTag "Period", .endTag "TimeSeries"]

/-- The document decoded from `evsEq`: `period_start = period_end`. -/
def docEq : PriceDocument :=
  { currency := "EUR", resolution := .PT15M,
    period_start := 1705276800000000000, period_end := 1705276800000000000,
    prices := [⟨1705280400000000000, .finite 50⟩] }

/-- The event stream of an isolated `<Point>` element holding one position
text and one price text. -/
def pointBlock (posTxt priceTxt : String) : List XmlEvent :=
  [.start "Point", .start "position", .text posTxt, .endTag "position",
   .start "price.amount", .text priceTxt, .endTag "price.amount",
   .endTag "Point"]

/-- The scan composed with finalization, from an arbitrary state;
`parse_day_ahead_prices` is this at the initial state. -/
def scanFinalize (st : ParserState) (evs : List XmlEvent) :
    Except EntsoeError PriceDocument :=
  match scanEvents st evs with
  | .ok st' => finalize st'
  | .error e => .error e

/-- Whether scanning an event stream is unaffected by the incoming
`current_tag`: true unless a text event arrives before any start/end tag
(only ignored events may precede it).  The decoder clears `current_tag` on
every closing tag, so in a well-nested document the stream following any
closing tag satisfies this. -/
def tagInsensitive : List XmlEvent → Bool
  | [] => true
  | .text _ :: _ => false
  | .other :: rest => tagInsensitive rest
  | _ => true

/-- The prefix used by the C7 witness: a full Period (currency, resolution,
interval, one good Point), still open. -/
def evs1w : List XmlEvent :=
  [.start "TimeSeries", .start "currency_Unit.name", .text "EUR", .endTag "currency_Unit.name",
   .start "Period", .start "resolution", .text "PT15M", .endTag "resolution",
   .start "timeInterval", .start "start", .text "2024-01-15T00:00Z", .endTag "start",
   .start "end", .text "2024-01-16T00:00Z", .endTag "end", .endTag "timeInterval",
   .start "Point", .start "position", .text "5", .endTag "position",
   .start "price.amount", .text "50", .endTag "price.amount", .endTag "Point"]

/-- The suffix used by the C7 witness: close the Period and TimeSeries. -/
def evs2w : List XmlEvent :=
  [.endTag "Period", .endTag "TimeSeries"]

/-- The scan state reached at the end of `evs1w`. -/
def st1w : ParserState :=
  { currency := some "EUR", resolution := some .PT15M,
    period_start := some 1705276800000000000,
    period_end := some 1705363200000000000,
    all_points := [(1705276800000000000, 5, .finite 50)],
    in_time_series := true, in_period := true,
    current_period_start := some 1705276800000000000 }

/-! ## Theorems -/

theorem rangeSum_shift (price : Nat → ℚ) (n j : Nat) :
    rangeSum price n (j+1) = rangeSum price n j + price (j+n) - price j := by
  have h1 : ((List.range' j (n+1)).map price).sum = price j + rangeSum price n (j+1) := by
    rw [List.range'_succ]
    simp [rangeSum]
  have h2 : ((List.range' j (n+1)).map price).sum = rangeSum price n j + price (j+n) := by
    rw [List.range'_concat]
    simp [rangeSum]
  rw [h1] at h2
  linarith

theorem windowSum_eq_rangeSum (periods : List Period) :
    ∀ n j, j + n ≤ periods.length →
      windowSum periods n j = rangeSum (priceAt periods) n j := by
  intro n
  induction n with
  | zero => intro j _; simp [windowSum, rangeSum]
  | succ m ih =>
      intro j hj
      have hjlt : j < periods.length := by omega
      have hdrop : periods.drop j = periods[j] :: periods.drop (j+1) :=
        List.drop_eq_getElem_cons hjlt
      have hp : priceAt periods j = periods[j].price := by
        simp [priceAt, List.getElem?_eq_getElem hjlt]
      have hrs : rangeSum (priceAt periods) (m+1) j =
          priceAt periods j + rangeSum (priceAt periods) m (j+1) := by
        rw [rangeSum, List.range'_succ]
        simp [rangeSum]
      rw [windowSum, hdrop, List.take_succ_cons, List.map_cons, List.sum_cons,
        hrs, hp, ← windowSum, ih (j+1) (by omega)]

theorem slidingLoop_index_le (better : ℚ → ℚ → Bool) (price : Nat → ℚ) (n : Nat) :
    ∀ k i bi bs cs, bi + n ≤ i →
      (slidingLoop better price n i k (bi, bs, cs)).1 + n ≤ i + k := by
  intro k
  induction k with
  | zero => intro i bi bs cs h; simpa [slidingLoop] using by omega
  | succ m ih =>
      intro i bi bs cs h
      rw [slidingLoop]
      split
      · have := ih (i+1) (i+1-n) (cs + price i - price (i - n))
          (cs + price i - price (i - n)) (by omega)
        omega
      · have := ih (i+1) bi bs (cs + price i - price (i - n)) (by omega)
        omega

theorem slidingLoop_inv (better : ℚ → ℚ → Bool) (price : Nat → ℚ) (n : Nat)
    (hirr : ∀ a, better a a = false)
    (htrans : ∀ a b c, better a b = true → better b c = true → better a c = true) :
    ∀ k i bi bs cs, n ≤ i → bi + n ≤ i →
      cs = rangeSum price n (i - n) →
      bs = rangeSum price n bi →
      (∀ j, j + n ≤ i → better (rangeSum price n j) bs = false) →
      (∀ j, j + n ≤ i → rangeSum price n j = bs → bi ≤ j) →
      (slidingLoop better price n i k (bi, bs, cs)).2.1 =
          rangeSum price n (slidingLoop better price n i k (bi, bs, cs)).1 ∧
      (∀ j, j + n ≤ i + k →
        better (rangeSum price n j) (slidingLoop better price n i k (bi, bs, cs)).2.1 = false) ∧
      (∀ j, j + n ≤ i + k →
        rangeSum price n j = (slidingLoop better price n i k (bi, bs, cs)).2.1 →
        (slidingLoop better price n i k (bi, bs, cs)).1 ≤ j) := by
  intro k
  induction k with
  | zero =>
      intro i bi bs cs hni hbi hcs hbs hbest htie
      refine ⟨by simpa [slidingLoop] using hbs, ?_, ?_⟩
      · intro j hj; simpa [slidingLoop] using hbest j (by omega)
      · intro j hj heq
        simp only [slidingLoop] at heq ⊢
        exact htie j (by omega) heq
  | succ m ih =>
      intro i bi bs cs hni hbi hcs hbs hbest htie
      have hsub : i - n + n = i := by omega
      have hsucc : i + 1 - n = i - n + 1 := by omega
      have hcs' : cs + price i - price (i - n) = rangeSum price n (i + 1 - n) := by
        rw [hsucc, rangeSum_shift, ← hcs]
        rw [hsub]
      rw [slidingLoop]
      split
      · -- the new window strictly improves on the best so far
        rename_i hupd
        have hres := ih (i+1) (i+1-n) (cs + price i - price (i - n))
          (cs + price i - price (i - n)) (by omega) (by omega)
          (by rw [hcs'])
          (by rw [hcs'])
          (by
            intro j hj
            rcases Nat.lt_or_ge (j + n) (i + 1) with hlt | hge
            · by_contra hcon
              have hne : better (rangeSum price n j) (cs + price i - price (i - n)) = true := by
                cases hx : better (rangeSum price n j) (cs + price i - price (i - n))
                · exact absurd hx hcon
                · rfl
              have := htrans _ _ _ hne hupd
              have hfalse := hbest j (by omega)
              rw [this] at hfalse
              exact absurd hfalse (by simp)
            · have hjeq : j = i + 1 - n := by omega
              rw [hjeq, ← hcs', hirr])
          (by
            intro j hj heq
            rcases Nat.lt_or_ge (j + n) (i + 1) with hlt | hge
            · exfalso
              have hfalse := hbest j (by omega)
              rw [heq, hupd] at hfalse
              exact absurd hfalse (by simp)
            · omega)
        exact ⟨hres.1, fun j hj => hres.2.1 j (by omega),
          fun j hj => hres.2.2 j (by omega) ⟩
      · -- keep the previous best
        rename_i hupd
        have hupd' : better (cs + price i - price (i - n)) bs = false := by
          cases hx : better (cs + price i - price (i - n)) bs
          · rfl
          · exact absurd hx hupd
        have hres := ih (i+1) bi bs (cs + price i - price (i - n))
          (by omega) (by omega)
          (by rw [hcs'])
          hbs
          (by
            intro j hj
            rcases Nat.lt_or_ge (j + n) (i + 1) with hlt | hge
            · exact hbest j (by omega)
            · have hjeq : j = i + 1 - n := by omega
              rw [hjeq, ← hcs']
              exact hupd')
          (by
            intro j hj heq
            rcases Nat.lt_or_ge (j + n) (i + 1) with hlt | hge
            · exact htie j (by omega) heq
            · omega)
        exact ⟨hres.1, fun j hj => hres.2.1 j (by omega),
          fun j hj => hres.2.2 j (by omega) ⟩

theorem loop_spec (better : ℚ → ℚ → Bool)
    (hirr : ∀ a, better a a = false)
    (htrans : ∀ a b c, better a b = true → better b c = true → better a c = true)
    (periods : List Period) (n : Nat) (_h1 : 1 ≤ n) (h2 : n ≤ periods.length) :
    (slidingLoop better (priceAt periods) n n (periods.length - n)
        (0, ((periods.take n).map Period.price).sum,
            ((periods.take n).map Period.price).sum)).2.1 =
      windowSum periods n
        (slidingLoop better (priceAt periods) n n (periods.length - n)
          (0, ((periods.take n).map Period.price).sum,
              ((periods.take n).map Period.price).sum)).1 ∧
    (slidingLoop better (priceAt periods) n n (periods.length - n)
        (0, ((periods.take n).map Period.price).sum,
            ((periods.take n).map Period.price).sum)).1 + n ≤ periods.length ∧
    (∀ j, j + n ≤ periods.length →
      better (windowSum periods n j)
        (slidingLoop better (priceAt periods) n n (periods.length - n)
          (0, ((periods.take n).map Period.price).sum,
              ((periods.take n).map Period.price).sum)).2.1 = false) ∧
    (∀ j, j + n ≤ periods.length →
      windowSum periods n j =
        (slidingLoop better (priceAt periods) n n (periods.length - n)
          (0, ((periods.take n).map Period.price).sum,
              ((periods.take n).map Period.price).sum)).2.1 →
      (slidingLoop better (priceAt periods) n n (periods.length - n)
        (0, ((periods.take n).map Period.price).sum,
            ((periods.take n).map Period.price).sum)).1 ≤ j) := by
  have hinit : ((periods.take n).map Period.price).sum =
      rangeSum (priceAt periods) n 0 := by
    have : windowSum periods n 0 = ((periods.take n).map Period.price).sum := by
      simp [windowSum]
    rw [← this, windowSum_eq_rangeSum periods n 0 (by omega)]
  have hidx := slidingLoop_index_le better (priceAt periods) n
    (periods.length - n) n 0 (((periods.take n).map Period.price).sum)
    (((periods.take n).map Period.price).sum) (by omega)
  have hinv := slidingLoop_inv better (priceAt periods) n hirr htrans
    (periods.length - n) n 0 (((periods.take n).map Period.price).sum)
    (((periods.take n).map Period.price).sum)
    (le_refl n) (by omega)
    (by rw [hinit, Nat.sub_self])
    hinit
    (by
      intro j hj
      have hj0 : j = 0 := by omega
      rw [hj0, ← hinit]
      exact hirr _)
    (by intro j hj _; omega)
  have hlen : n + (periods.length - n) = periods.length := by omega
  rw [hlen] at hinv hidx
  refine ⟨?_, hidx, ?_, ?_⟩
  · rw [hinv.1, windowSum_eq_rangeSum periods n _ hidx]
  · intro j hj
    rw [windowSum_eq_rangeSum periods n j hj]
    exact hinv.2.1 j hj
  · intro j hj heq
    rw [windowSum_eq_rangeSum periods n j hj] at heq
    exact hinv.2.2 j hj heq

/-- C1: For every sequence of periods and every `n` with
`1 ≤ n ≤ length`, `find_cheapest_consecutive_hours` returns
`Some((index, sum))` where `sum` is the total of the `n` contiguous samples
starting at `index`, `sum` is less than or equal to every contiguous
`n`-sample window total, and `index` is the smallest starting index
achieving that minimum (earliest window wins ties);
`find_expensivest_consecutive_hours` symmetrically returns the earliest
window with maximal total. -/
theorem find_extremes_correct (periods : List Period) (n : Nat)
    (h1 : 1 ≤ n) (h2 : n ≤ periods.length) :
    (∃ i s, find_cheapest_consecutive_hours periods n = some (i, s) ∧
      s = windowSum periods n i ∧
      (∀ j, j + n ≤ periods.length → s ≤ windowSum periods n j) ∧
      (∀ j, j + n ≤ periods.length → windowSum periods n j = s → i ≤ j)) ∧
    (∃ i s, find_expensivest_consecutive_hours periods n = some (i, s) ∧
      s = windowSum periods n i ∧
      (∀ j, j + n ≤ periods.length → windowSum periods n j ≤ s) ∧
      (∀ j, j + n ≤ periods.length → windowSum periods n j = s → i ≤ j)) := by
  have hne : periods.isEmpty = false := by
    cases periods with
    | nil => simp at h2; omega
    | cons a l => simp
  have hn0 : (n == 0) = false := by
    simp; omega
  have hnotlt : ¬ periods.length < n := by omega
  constructor
  · have hspec := loop_spec (fun a b => a < b)
      (by intro a; simp) (by intro a b c hab hbc; simp at *; linarith)
      periods n h1 h2
    have heq : find_cheapest_consecutive_hours periods n =
        some ((slidingLoop (fun a b => a < b) (priceAt periods) n n
            (periods.length - n)
            (0, ((periods.take n).map Period.price).sum,
                ((periods.take n).map Period.price).sum)).1,
          (slidingLoop (fun a b => a < b) (priceAt periods) n n
            (periods.length - n)
            (0, ((periods.take n).map Period.price).sum,
                ((periods.take n).map Period.price).sum)).2.1) := by
      rw [find_cheapest_consecutive_hours, hne, hn0]
      simp [hnotlt]
    refine ⟨_, _, heq, hspec.1, ?_, ?_⟩
    · intro j hj
      have := hspec.2.2.1 j hj
      simp only [decide_eq_false_iff_not, not_lt] at this
      exact this
    · intro j hj hweq
      exact hspec.2.2.2 j hj hweq
  · have hspec := loop_spec (fun a b => a > b)
      (by intro a; simp) (by intro a b c hab hbc; simp at *; linarith)
      periods n h1 h2
    have heq : find_expensivest_consecutive_hours periods n =
        some ((slidingLoop (fun a b => a > b) (priceAt periods) n n
            (periods.length - n)
            (0, ((periods.take n).map Period.price).sum,
                ((periods.take n).map Period.price).sum)).1,
          (slidingLoop (fun a b => a > b) (priceAt periods) n n
            (periods.length - n)
            (0, ((periods.take n).map Period.price).sum,
                ((periods.take n).map Period.price).sum)).2.1) := by
      rw [find_expensivest_consecutive_hours, hne, hn0]
      simp [hnotlt]
    refine ⟨_, _, heq, hspec.1, ?_, ?_⟩
    · intro j hj
      have := hspec.2.2.1 j hj
      simp only [decide_eq_false_iff_not, not_lt, gt_iff_lt] at this
      exact this
    · intro j hj hweq
      exact hspec.2.2.2 j hj hweq

/-- Witness for C1 at the spec's example: prices `[5,1,2,8,3]`, `n = 2`. -/
theorem find_extremes_correct_witness :
    1 ≤ 2 ∧ 2 ≤ examplePeriods.length ∧
    ((∃ i s, find_cheapest_consecutive_hours examplePeriods 2 = some (i, s) ∧
      s = windowSum examplePeriods 2 i ∧
      (∀ j, j + 2 ≤ examplePeriods.length → s ≤ windowSum examplePeriods 2 j) ∧
      (∀ j, j + 2 ≤ examplePeriods.length → windowSum examplePeriods 2 j = s → i ≤ j)) ∧
    (∃ i s, find_expensivest_consecutive_hours examplePeriods 2 = some (i, s) ∧
      s = windowSum examplePeriods 2 i ∧
      (∀ j, j + 2 ≤ examplePeriods.length → windowSum examplePeriods 2 j ≤ s) ∧
      (∀ j, j + 2 ≤ examplePeriods.length → windowSum examplePeriods 2 j = s → i ≤ j))) :=
  ⟨by decide, by decide, find_extremes_correct examplePeriods 2 (by decide) (by decide)⟩

/-- C3: On an empty sequence, `n = 0`, or `n` exceeding the sequence
length, both analyzer functions return `None` — no shrunken window. -/
theorem find_none_on_degenerate (periods : List Period) (n : Nat)
    (h : periods = [] ∨ n = 0 ∨ periods.length < n) :
    find_cheapest_consecutive_hours periods n = none ∧
    find_expensivest_consecutive_hours periods n = none := by
  rcases h with h | h | h
  · subst h
    simp [find_cheapest_consecutive_hours, find_expensivest_consecutive_hours]
  · subst h
    simp [find_cheapest_consecutive_hours, find_expensivest_consecutive_hours]
  · constructor
    · rw [find_cheapest_consecutive_hours]
      split_ifs <;> rfl
    · rw [find_expensivest_consecutive_hours]
      split_ifs <;> rfl

/-- Witness for C3: a window of 6 samples requested from 5 samples. -/
theorem find_none_on_degenerate_witness :
    (examplePeriods = [] ∨ (6 : Nat) = 0 ∨ examplePeriods.length < 6) ∧
    find_cheapest_consecutive_hours examplePeriods 6 = none ∧
    find_expensivest_consecutive_hours examplePeriods 6 = none :=
  ⟨by decide, find_none_on_degenerate examplePeriods 6 (by decide)⟩

/-- C10: Whenever either analyzer function returns `Some((index, sum))`
for a sequence of length `L` and window size `n`, then `index + n ≤ L`, and
in particular `index < L`, so the callers' accesses `periods[index]` in
`render_cheapest` / `render_expensivest` are in bounds. -/
theorem find_result_index_bounds (periods : List Period) (n : Nat)
    (i : Nat) (s : ℚ)
    (h : find_cheapest_consecutive_hours periods n = some (i, s) ∨
         find_expensivest_consecutive_hours periods n = some (i, s)) :
    i + n ≤ periods.length ∧ i < periods.length := by
  have key : ∀ better : ℚ → ℚ → Bool,
      (if periods.isEmpty || n == 0 then none
       else if periods.length < n then none
       else
        let init : ℚ := ((periods.take n).map Period.price).sum
        let r := slidingLoop better (priceAt periods) n
          n (periods.length - n) (0, init, init)
        some (r.1, r.2.1)) = some (i, s) →
      i + n ≤ periods.length ∧ i < periods.length := by
    intro better heq
    split at heq
    · exact absurd heq (by simp)
    · split at heq
      · exact absurd heq (by simp)
      · rename_i hdeg hlen
        simp only [Bool.or_eq_true, not_or] at hdeg
        have hn : n ≠ 0 := by
          intro h0
          exact hdeg.2 (by simp [h0])
        have hlen' : n ≤ periods.length := by omega
        simp only [Option.some.injEq, Prod.mk.injEq] at heq
        have hidx := slidingLoop_index_le better (priceAt periods) n
          (periods.length - n) n 0 (((periods.take n).map Period.price).sum)
          (((periods.take n).map Period.price).sum) (by omega)
        rw [heq.1] at hidx
        omega
  rcases h with h | h
  · exact key _ (by rw [← find_cheapest_consecutive_hours]; exact h)
  · exact key _ (by rw [← find_expensivest_consecutive_hours]; exact h)

/-- Concrete evaluation: the cheapest 2-sample window of `[5,1,2,8,3]` is
reported at index 1 with sum 3 (the spec's worked example). -/
theorem find_cheapest_example_eval :
    find_cheapest_consecutive_hours examplePeriods 2 = some (1, 3) := by
  norm_num [find_cheapest_consecutive_hours, slidingLoop, priceAt, examplePeriods]

/-- Witness for C10 at the spec's example: the cheapest 2-window of
`[5,1,2,8,3]` is reported at index 1 with sum 3, and `1 + 2 ≤ 5`. -/
theorem find_result_index_bounds_witness :
    (find_cheapest_consecutive_hours examplePeriods 2 = some (1, 3) ∨
     find_expensivest_consecutive_hours examplePeriods 2 = some (1, 3)) ∧
    1 + 2 ≤ examplePeriods.length ∧ 1 < examplePeriods.length :=
  ⟨Or.inl find_cheapest_example_eval,
   find_result_index_bounds examplePeriods 2 1 3 (Or.inl find_cheapest_example_eval)⟩

theorem parse_ok_elim (evs : List XmlEvent) (doc : PriceDocument)
    (h : parse_day_ahead_prices evs = .ok doc) :
    ∃ st, scanEvents initState evs = .ok st ∧ finalize st = .ok doc := by
  unfold parse_day_ahead_prices at h
  cases hscan : scanEvents initState evs with
  | ok st => rw [hscan] at h; exact ⟨st, rfl, h⟩
  | error e => rw [hscan] at h; exact absurd h (by simp)

theorem finalize_ok (st : ParserState) (doc : PriceDocument)
    (h : finalize st = .ok doc) :
    st.currency = some doc.currency ∧
    st.resolution = some doc.resolution ∧
    st.period_start = some doc.period_start ∧
    st.period_end = some doc.period_end ∧
    st.all_points ≠ [] ∧
    doc.prices = (st.all_points.map (fun p =>
      { timestamp := addMinutes p.1 ((p.2.1 - 1) * doc.resolution.minutes),
        price := p.2.2 : PricePoint })).mergeSort
          (fun p q => p.timestamp ≤ q.timestamp) := by
  unfold finalize at h
  cases hcur : st.currency with
  | none => simp [hcur] at h
  | some currency =>
    simp only [hcur] at h
    cases hres : st.resolution with
    | none => simp [hres] at h
    | some resolution =>
      simp only [hres] at h
      cases hps : st.period_start with
      | none => simp [hps] at h
      | some pstart =>
        simp only [hps] at h
        cases hpe : st.period_end with
        | none => simp [hpe] at h
        | some pend =>
          simp only [hpe] at h
          by_cases hemp : st.all_points = []
          · rw [if_pos hemp] at h; exact absurd h (by simp)
          · rw [if_neg hemp] at h
            simp only [Except.ok.injEq] at h
            subst h
            exact ⟨rfl, rfl, rfl, rfl, hemp, rfl⟩

/-- C4: Every emitted sample's timestamp equals the enclosing Period's
anchor plus `(position − 1) × resolution` minutes; in particular, with
15-minute resolution, anchor 2024-01-15T00:00:00Z and position 5, the
sample timestamp is 2024-01-15T01:00:00Z. -/
theorem sample_timestamp_formula :
    (∀ evs doc, parse_day_ahead_prices evs = .ok doc →
      ∀ p ∈ doc.prices, ∃ st anchor pos pr,
        scanEvents initState evs = .ok st ∧
        (anchor, pos, pr) ∈ st.all_points ∧
        p.timestamp = addMinutes anchor (((pos : Int) - 1) * doc.resolution.minutes) ∧
        p.price = pr) ∧
    (parseRfc3339 "2024-01-15T00:00:00Z").map
        (fun a => addMinutes a (((5 : Int) - 1) * Resolution.PT15M.minutes)) =
      parseRfc3339 "2024-01-15T01:00:00Z" := by
  constructor
  · intro evs doc h p hp
    obtain ⟨st, hscan, hfin⟩ := parse_ok_elim evs doc h
    obtain ⟨-, -, -, -, -, hprices⟩ := finalize_ok st doc hfin
    rw [hprices, (List.mergeSort_perm _ _).mem_iff, List.mem_map] at hp
    obtain ⟨x, hx, hfx⟩ := hp
    refine ⟨st, x.1, x.2.1, x.2.2, hscan, by simpa using hx, ?_, ?_⟩
    · rw [← hfx]
    · rw [← hfx]
  · decide

/-- Witness for C4: the document decoded from `evsOK` and its single price
point, which sits at anchor + (5−1)×15 minutes = 2024-01-15T01:00:00Z. -/
theorem sample_timestamp_formula_witness :
    parse_day_ahead_prices evsOK = .ok docOK ∧
    (⟨1705280400000000000, .finite 50⟩ : PricePoint) ∈ docOK.prices ∧
    (∃ st anchor pos pr,
      scanEvents initState evsOK = .ok st ∧
      (anchor, pos, pr) ∈ st.all_points ∧
      (⟨1705280400000000000, .finite 50⟩ : PricePoint).timestamp =
        addMinutes anchor (((pos : Int) - 1) * docOK.resolution.minutes) ∧
      (⟨1705280400000000000, .finite 50⟩ : PricePoint).price = pr) :=
  ⟨by decide, by decide,
   sample_timestamp_formula.1 evsOK docOK (by decide) _ (by decide)⟩

/-- C5: If the scan completes with `currency`, `resolution`, global
`period_start` or global `period_end` never observed, the decode fails
with `MissingField` naming an absent field (the first absent one in the
source's check order). -/
theorem missing_field_error (evs : List XmlEvent) (st : ParserState)
    (hscan : scanEvents initState evs = .ok st)
    (hmiss : st.currency = none ∨ st.resolution = none ∨
             st.period_start = none ∨ st.period_end = none) :
    ∃ f, parse_day_ahead_prices evs = .error (.MissingField f) ∧
      ((st.currency = none ∧ f = "currency_Unit.name") ∨
       (st.currency ≠ none ∧ st.resolution = none ∧ f = "resolution") ∨
       (st.currency ≠ none ∧ st.resolution ≠ none ∧ st.period_start = none ∧
         f = "period start") ∨
       (st.currency ≠ none ∧ st.resolution ≠ none ∧ st.period_start ≠ none ∧
         st.period_end = none ∧ f = "period end")) := by
  have hparse : parse_day_ahead_prices evs = finalize st := by
    unfold parse_day_ahead_prices
    rw [hscan]
  rw [hparse]
  unfold finalize
  cases hcur : st.currency with
  | none => exact ⟨"currency_Unit.name", rfl, Or.inl ⟨rfl, rfl⟩⟩
  | some c =>
    cases hres : st.resolution with
    | none =>
        refine ⟨"resolution", by simp only [hres], Or.inr (Or.inl ⟨by simp, rfl, rfl⟩)⟩
    | some r =>
      cases hps : st.period_start with
      | none =>
          refine ⟨"period start", by simp only [hres, hps],
            Or.inr (Or.inr (Or.inl ⟨by simp, by simp, rfl, rfl⟩))⟩
      | some a =>
        cases hpe : st.period_end with
        | none =>
            refine ⟨"period end", by simp only [hres, hps, hpe],
              Or.inr (Or.inr (Or.inr ⟨by simp, by simp, by simp, rfl, rfl⟩))⟩
        | some b =>
            exfalso
            rcases hmiss with h | h | h | h
            · rw [hcur] at h; exact Option.noConfusion h
            · rw [hres] at h; exact Option.noConfusion h
            · rw [hps] at h; exact Option.noConfusion h
            · rw [hpe] at h; exact Option.noConfusion h

/-- Witness for C5: decoding `<root></root>` fails with
`MissingField "currency_Unit.name"`. -/
theorem missing_field_error_witness :
    scanEvents initState rootEvents = .ok initState ∧
    (initState.currency = none ∨ initState.resolution = none ∨
     initState.period_start = none ∨ initState.period_end = none) ∧
    (∃ f, parse_day_ahead_prices rootEvents = .error (.MissingField f) ∧
      ((initState.currency = none ∧ f = "currency_Unit.name") ∨
       (initState.currency ≠ none ∧ initState.resolution = none ∧ f = "resolution") ∨
       (initState.currency ≠ none ∧ initState.resolution ≠ none ∧
         initState.period_start = none ∧ f = "period start") ∨
       (initState.currency ≠ none ∧ initState.resolution ≠ none ∧
         initState.period_start ≠ none ∧ initState.period_end = none ∧
         f = "period end"))) :=
  ⟨by decide, by decide,
   missing_field_error rootEvents initState (by decide) (by decide)⟩

/-- Counterexample to C6: on a document whose four summary fields are
all present but which has no samples, the decode fails with
`XmlParseError "No price points found"` — the same error kind the decoder
uses for syntax errors, not a distinct `EmptyResult` kind (the
`EntsoeError` enumeration has no such variant). -/
theorem empty_result_kind_counterexample :
    parse_day_ahead_prices evsNoPoints =
      .error (.XmlParseError "No price points found") ∧
    ¬ (∃ e, parse_day_ahead_prices evsNoPoints = .error e ∧
        (∀ s, e ≠ EntsoeError.XmlParseError s) ∧
        (∀ s, e ≠ EntsoeError.MissingField s)) := by
  have hX : parse_day_ahead_prices evsNoPoints =
      .error (.XmlParseError "No price points found") := by decide
  refine ⟨hX, ?_⟩
  rintro ⟨e, he, hnx, -⟩
  rw [hX] at he
  exact hnx "No price points found" (Except.error.inj he).symm

/-- C6 (amended): If all four required summary fields were observed but
the final sample list is empty, the decode fails with
`XmlParseError "No price points found"`; the error taxonomy has no separate
`EmptyResult` kind, so this failure reuses the variant that also carries
syntax errors. -/
theorem empty_points_error (evs : List XmlEvent) (st : ParserState)
    (hscan : scanEvents initState evs = .ok st)
    (hcur : st.currency ≠ none) (hres : st.resolution ≠ none)
    (hps : st.period_start ≠ none) (hpe : st.period_end ≠ none)
    (hempty : st.all_points = []) :
    parse_day_ahead_prices evs =
      .error (.XmlParseError "No price points found") := by
  have hparse : parse_day_ahead_prices evs = finalize st := by
    unfold parse_day_ahead_prices
    rw [hscan]
  rw [hparse]
  unfold finalize
  obtain ⟨c, hc⟩ := Option.ne_none_iff_exists'.mp hcur
  obtain ⟨r, hr⟩ := Option.ne_none_iff_exists'.mp hres
  obtain ⟨a, ha⟩ := Option.ne_none_iff_exists'.mp hps
  obtain ⟨b, hb⟩ := Option.ne_none_iff_exists'.mp hpe
  simp only [hc, hr, ha, hb, if_pos hempty]

/-- Witness for the amended C6 at the concrete no-points document. -/
theorem empty_points_error_witness :
    scanEvents initState evsNoPoints = .ok stNoPoints ∧
    stNoPoints.currency ≠ none ∧ stNoPoints.resolution ≠ none ∧
    stNoPoints.period_start ≠ none ∧ stNoPoints.period_end ≠ none ∧
    stNoPoints.all_points = [] ∧
    parse_day_ahead_prices evsNoPoints =
      .error (.XmlParseError "No price points found") :=
  ⟨by decide, by decide, by decide, by decide, by decide, by decide,
   empty_points_error evsNoPoints stNoPoints (by decide) (by decide)
     (by decide) (by decide) (by decide) (by decide)⟩

/-- Counterexample to C2: `evsDup` decodes successfully to a document
whose two price points carry identical timestamps, so `prices` is not
strictly ascending and has a duplicate timestamp. -/
theorem prices_strictly_sorted_counterexample :
    parse_day_ahead_prices evsDup = .ok docDup ∧
    ¬ List.Pairwise (fun p q : PricePoint => p.timestamp < q.timestamp)
        docDup.prices := by
  constructor
  · decide
  · decide

/-- C2 (amended): For every event stream on which the decode succeeds,
`prices` is sorted in nondecreasing timestamp order (the decoder only
sorts; duplicate timestamps are not removed, so the order need not be
strictly ascending). -/
theorem prices_sorted_nondecreasing (evs : List XmlEvent)
    (doc : PriceDocument) (h : parse_day_ahead_prices evs = .ok doc) :
    List.Pairwise (fun p q : PricePoint => p.timestamp ≤ q.timestamp)
      doc.prices := by
  obtain ⟨st, hscan, hfin⟩ := parse_ok_elim evs doc h
  obtain ⟨-, -, -, -, -, hprices⟩ := finalize_ok st doc hfin
  rw [hprices]
  have hsorted := @List.sorted_mergeSort PricePoint
    (fun p q => p.timestamp ≤ q.timestamp)
    (by intro a b c hab hbc; simp only [decide_eq_true_eq] at *; omega)
    (by intro a b; simpa using le_total a.timestamp b.timestamp)
    (st.all_points.map (fun p =>
      { timestamp := addMinutes p.1 ((p.2.1 - 1) * doc.resolution.minutes),
        price := p.2.2 : PricePoint }))
  exact hsorted.imp (by intro a b hab; simpa using hab)

/-- Witness for the amended C2 at the concrete document `evsOK`. -/
theorem prices_sorted_nondecreasing_witness :
    parse_day_ahead_prices evsOK = .ok docOK ∧
    List.Pairwise (fun p q : PricePoint => p.timestamp ≤ q.timestamp)
      docOK.prices :=
  ⟨by decide, prices_sorted_nondecreasing evsOK docOK (by decide)⟩

theorem trimTrailingZ_append_Z (base : String)
    (hlast : base.data.getLast? ≠ some 'Z') :
    trimTrailingZ (base ++ "Z") = base := by
  apply String.ext
  show ((base ++ "Z").data.reverse.dropWhile (· = 'Z')).reverse = base.data
  rw [String.data_append]
  show ((base.data ++ ['Z']).reverse.dropWhile (· = 'Z')).reverse = base.data
  rw [List.reverse_append]
  show ((['Z'].reverse ++ base.data.reverse).dropWhile (· = 'Z')).reverse = base.data
  have hdrop : (('Z' :: base.data.reverse).dropWhile (· = 'Z')) = base.data.reverse := by
    rw [List.dropWhile_cons, if_pos (by decide)]
    cases hrev : base.data.reverse with
    | nil => simp
    | cons a l =>
        have ha : a ≠ 'Z' := by
          intro haz
          apply hlast
          rw [← List.head?_reverse, hrev, haz]
          rfl
        rw [List.dropWhile_cons, if_neg (by simpa using ha)]
  simpa using congrArg List.reverse hdrop

/-- C8: A start/end instant text of the shape `base ++ "Z"` whose body
has exactly one colon (i.e. the seconds component is missing) is normalized
by inserting the literal `":00"` before the trailing timezone designator
`Z`; consequently, whenever the normalized text is a valid instant, the
decoder parses the seconds-less text instead of dropping it. -/
theorem seconds_normalization (base : String)
    (hcount : base.data.count ':' = 1)
    (hlast : base.data.getLast? ≠ some 'Z') :
    normalizeInstantText (base ++ "Z") = base ++ ":00" ++ "Z" ∧
    (∀ t, parseRfc3339 (base ++ ":00" ++ "Z") = some t →
      parseInstant (base ++ "Z") = some t) := by
  have hcond : ¬ ((base ++ "Z").data.contains ':') = true ∨
      (base ++ "Z").data.count ':' = 1 := by
    right
    rw [String.data_append, List.count_append, hcount]
    rfl
  have hnorm : normalizeInstantText (base ++ "Z") = base ++ ":00" ++ "Z" := by
    rw [normalizeInstantText, if_pos hcond, trimTrailingZ_append_Z base hlast]
  refine ⟨hnorm, ?_⟩
  intro t ht
  rw [parseInstant, hnorm]
  exact ht

/-- Witness for C8 at the spec's seconds-less instant
`2024-01-15T00:00Z`. -/
theorem seconds_normalization_witness :
    ("2024-01-15T00:00" : String).data.count ':' = 1 ∧
    ("2024-01-15T00:00" : String).data.getLast? ≠ some 'Z' ∧
    (normalizeInstantText ("2024-01-15T00:00" ++ "Z") =
      "2024-01-15T00:00" ++ ":00" ++ "Z" ∧
    (∀ t, parseRfc3339 ("2024-01-15T00:00" ++ ":00" ++ "Z") = some t →
      parseInstant ("2024-01-15T00:00" ++ "Z") = some t)) :=
  ⟨by decide, by decide,
   seconds_normalization "2024-01-15T00:00" (by decide) (by decide)⟩

theorem stepEvent_period_start (st : ParserState) (ev : XmlEvent)
    (st' : ParserState) (h : stepEvent st ev = .ok st') :
    st'.period_start = runMin st.period_start (startEmissions st ev) := by
  cases ev with
  | start name =>
      simp only [stepEvent, Except.ok.injEq] at h
      subst h
      simp only [startEmissions, runMin, List.foldl_nil]
      simp only [stepStart]
      split_ifs <;> rfl
  | endTag name =>
      simp only [stepEvent, Except.ok.injEq] at h
      subst h
      simp only [startEmissions, runMin, List.foldl_nil]
      simp only [stepEnd]
      split_ifs <;> try rfl
      split <;> rfl
  | text raw =>
      simp only [stepEvent, Except.ok.injEq] at h
      subst h
      simp only [startEmissions, stepText]
      by_cases hemp : rustTrim raw = ""
      · simp [hemp, runMin]
      · rw [if_neg hemp, if_neg hemp]
        by_cases hc1 : st.current_tag = "currency_Unit.name"
        · have hc1' : ¬ (st.current_tag = "start" ∧ st.in_time_interval ∧ st.in_period) := by
            simp [hc1]
          rw [if_pos hc1, if_neg hc1']
          simp only [runMin, List.foldl_nil]
          split_ifs <;> rfl
        · rw [if_neg hc1]
          by_cases hc2 : st.current_tag = "resolution"
          · have hc2' : ¬ (st.current_tag = "start" ∧ st.in_time_interval ∧ st.in_period) := by
              simp [hc2]
            rw [if_pos hc2, if_neg hc2']
            simp only [runMin, List.foldl_nil]
            split_ifs <;> rfl
          · rw [if_neg hc2]
            by_cases hc3 : st.current_tag = "start"
            · rw [if_pos hc3]
              by_cases hg : st.in_time_interval ∧ st.in_period
              · have hg' : st.current_tag = "start" ∧ st.in_time_interval ∧ st.in_period :=
                  ⟨hc3, hg⟩
                rw [if_pos hg, if_pos hg']
                cases hdt : parseInstant (rustTrim raw) with
                | none => simp [runMin]
                | some d =>
                    simp only [runMin, List.foldl_cons, List.foldl_nil]
                    cases hps : st.period_start with
                    | none => rfl
                    | some p =>
                        by_cases hgt : p > d
                        · simp [hgt]
                        · simp [hgt]
              · have hg' : ¬ (st.current_tag = "start" ∧ st.in_time_interval ∧ st.in_period) := by
                  intro hx
                  exact hg hx.2
                rw [if_neg hg, if_neg hg']
                simp [runMin]
            · rw [if_neg hc3]
              have hc3' : ¬ (st.current_tag = "start" ∧ st.in_time_interval ∧ st.in_period) := by
                intro hx
                exact hc3 hx.1
              rw [if_neg hc3']
              by_cases hc4 : st.current_tag = "end"
              · rw [if_pos hc4]
                simp only [runMin, List.foldl_nil]
                split_ifs with hgg
                · cases parseInstant (rustTrim raw) with
                  | none => rfl
                  | some d =>
                      cases st.period_end with
                      | none => rfl
                      | some p =>
                          by_cases hlt : p < d
                          · simp [hlt]
                          · simp [hlt]
                · rfl
              · rw [if_neg hc4]
                simp only [runMin, List.foldl_nil]
                split_ifs <;> rfl
  | badText msg => exact absurd h (by simp [stepEvent])
  | err msg => exact absurd h (by simp [stepEvent])
  | other =>
      simp only [stepEvent, Except.ok.injEq] at h
      subst h
      simp [startEmissions, runMin]

theorem stepEvent_period_end (st : ParserState) (ev : XmlEvent)
    (st' : ParserState) (h : stepEvent st ev = .ok st') :
    st'.period_end = runMax st.period_end (endEmissions st ev) := by
  cases ev with
  | start name =>
      simp only [stepEvent, Except.ok.injEq] at h
      subst h
      simp only [endEmissions, runMax, List.foldl_nil]
      simp only [stepStart]
      split_ifs <;> rfl
  | endTag name =>
      simp only [stepEvent, Except.ok.injEq] at h
      subst h
      simp only [endEmissions, runMax, List.foldl_nil]
      simp only [stepEnd]
      split_ifs <;> try rfl
      split <;> rfl
  | text raw =>
      simp only [stepEvent, Except.ok.injEq] at h
      subst h
      simp only [endEmissions, stepText]
      by_cases hemp : rustTrim raw = ""
      · simp [hemp, runMax]
      · rw [if_neg hemp, if_neg hemp]
        by_cases hc1 : st.current_tag = "currency_Unit.name"
        · have hc1' : ¬ (st.current_tag = "end" ∧ st.in_time_interval ∧ st.in_period) := by
            simp [hc1]
          rw [if_pos hc1, if_neg hc1']
          simp only [runMax, List.foldl_nil]
          split_ifs <;> rfl
        · rw [if_neg hc1]
          by_cases hc2 : st.current_tag = "resolution"
          · have hc2' : ¬ (st.current_tag = "end" ∧ st.in_time_interval ∧ st.in_period) := by
              simp [hc2]
            rw [if_pos hc2, if_neg hc2']
            simp only [runMax, List.foldl_nil]
            split_ifs <;> rfl
          · rw [if_neg hc2]
            by_cases hc3 : st.current_tag = "start"
            · have hc3' : ¬ (st.current_tag = "end" ∧ st.in_time_interval ∧ st.in_period) := by
                simp [hc3]
              rw [if_pos hc3, if_neg hc3']
              simp only [runMax, List.foldl_nil]
              split_ifs with hgg
              · cases parseInstant (rustTrim raw) with
                | none => rfl
                | some d =>
                    cases st.period_start with
                    | none => rfl
                    | some p =>
                        by_cases hgt : p > d
                        · simp [hgt]
                        · simp [hgt]
              · rfl
            · rw [if_neg hc3]
              by_cases hc4 : st.current_tag = "end"
              · rw [if_pos hc4]
                by_cases hg : st.in_time_interval ∧ st.in_period
                · have hg' : st.current_tag = "end" ∧ st.in_time_interval ∧ st.in_period :=
                    ⟨hc4, hg⟩
                  rw [if_pos hg, if_pos hg']
                  cases hdt : parseInstant (rustTrim raw) with
                  | none => simp [runMax]
                  | some d =>
                      simp only [runMax, List.foldl_cons, List.foldl_nil]
                      cases hpe : st.period_end with
                      | none => rfl
                      | some p =>
                          by_cases hlt : p < d
                          · simp [hlt, hpe]
                          · simp [hlt, hpe]
                · have hg' : ¬ (st.current_tag = "end" ∧ st.in_time_interval ∧ st.in_period) := by
                    intro hx
                    exact hg hx.2
                  rw [if_neg hg, if_neg hg']
                  simp [runMax]
              · rw [if_neg hc4]
                have hc4' : ¬ (st.current_tag = "end" ∧ st.in_time_interval ∧ st.in_period) := by
                  intro hx
                  exact hc4 hx.1
                rw [if_neg hc4']
                simp only [runMax, List.foldl_nil]
                split_ifs <;> rfl
  | badText msg => exact absurd h (by simp [stepEvent])
  | err msg => exact absurd h (by simp [stepEvent])
  | other =>
      simp only [stepEvent, Except.ok.injEq] at h
      subst h
      simp [endEmissions, runMax]

theorem scanEvents_period_start :
    ∀ (evs : List XmlEvent) (st st' : ParserState),
      scanEvents st evs = .ok st' →
      st'.period_start = runMin st.period_start (collectStarts st evs) := by
  intro evs
  induction evs with
  | nil =>
      intro st st' h
      simp only [scanEvents, Except.ok.injEq] at h
      subst h
      rfl
  | cons ev rest ih =>
      intro st st' h
      rw [scanEvents] at h
      cases hstep : stepEvent st ev with
      | error e => rw [hstep] at h; exact absurd h (by simp)
      | ok st1 =>
          rw [hstep] at h
          rw [collectStarts, hstep]
          rw [runMin, List.foldl_append, ← runMin, ← runMin]
          rw [← stepEvent_period_start st ev st1 hstep]
          exact ih st1 st' h

theorem scanEvents_period_end :
    ∀ (evs : List XmlEvent) (st st' : ParserState),
      scanEvents st evs = .ok st' →
      st'.period_end = runMax st.period_end (collectEnds st evs) := by
  intro evs
  induction evs with
  | nil =>
      intro st st' h
      simp only [scanEvents, Except.ok.injEq] at h
      subst h
      rfl
  | cons ev rest ih =>
      intro st st' h
      rw [scanEvents] at h
      cases hstep : stepEvent st ev with
      | error e => rw [hstep] at h; exact absurd h (by simp)
      | ok st1 =>
          rw [hstep] at h
          rw [collectEnds, hstep]
          rw [runMax, List.foldl_append, ← runMax, ← runMax]
          rw [← stepEvent_period_end st ev st1 hstep]
          exact ih st1 st' h

theorem runMin_spec :
    ∀ (l : List Int) (o : Option Int) (x : Int), runMin o l = some x →
      (o = some x ∨ x ∈ l) ∧ (∀ y ∈ l, x ≤ y) ∧
      (∀ p, o = some p → x ≤ p) := by
  intro l
  induction l with
  | nil =>
      intro o x h
      simp only [runMin, List.foldl_nil] at h
      exact ⟨Or.inl h, by simp, fun p hp => by rw [h] at hp; simp only [Option.some.injEq] at hp; omega⟩
  | cons d rest ih =>
      intro o x h
      rw [runMin, List.foldl_cons, ← runMin] at h
      obtain ⟨hmem, hle, hprev⟩ := ih _ x h
      have hupd : ∀ q, (match o with
          | none => some d
          | some p => if p > d then some d else some p) = some q →
          (q ≤ d ∧ (o = some q ∨ q = d) ∧ ∀ p, o = some p → q ≤ p) := by
        intro q hq
        cases o with
        | none =>
            simp only [Option.some.injEq] at hq
            subst hq
            exact ⟨le_refl d, Or.inr rfl, by simp⟩
        | some p =>
            have hred : (match (some p : Option Int) with
                | none => some d
                | some p => if p > d then some d else some p) =
                if p > d then some d else some p := rfl
            rw [hred] at hq
            by_cases hgt : p > d
            · rw [if_pos hgt] at hq
              simp only [Option.some.injEq] at hq
              subst hq
              exact ⟨le_refl d, Or.inr rfl, fun r hr => by
                simp only [Option.some.injEq] at hr; omega⟩
            · rw [if_neg hgt] at hq
              simp only [Option.some.injEq] at hq
              subst hq
              exact ⟨by omega, Or.inl rfl, fun r hr => by
                simp only [Option.some.injEq] at hr; omega⟩
      refine ⟨?_, ?_, ?_⟩
      · rcases hmem with hx | hx
        · obtain ⟨-, hor, -⟩ := hupd x hx
          rcases hor with ho | hd
          · exact Or.inl ho
          · exact Or.inr (by rw [hd]; exact List.mem_cons_self d rest)
        · exact Or.inr (List.mem_cons_of_mem d hx)
      · intro y hy
        rcases List.mem_cons.mp hy with hyd | hyr
        · rw [hyd]
          rcases hmem with hx | hx
          · obtain ⟨hqd, -, -⟩ := hupd x hx
            exact hqd
          · cases hq : (match o with
              | none => some d
              | some p => if p > d then some d else some p) with
            | none =>
                exfalso
                cases o with
                | none => simp at hq
                | some p => by_cases hgt : p > d <;> simp [hgt] at hq
            | some q =>
                obtain ⟨hqd, -, -⟩ := hupd q hq
                exact le_trans (hprev q hq) hqd
        · exact hle y hyr
      · intro p hp
        cases hq : (match o with
            | none => some d
            | some p => if p > d then some d else some p) with
        | none =>
            exfalso
            cases o with
            | none => simp at hq
            | some r => by_cases hgt : r > d <;> simp [hgt] at hq
        | some q =>
            have hxq : x ≤ q := hprev q hq
            obtain ⟨-, -, hqo⟩ := hupd q hq
            exact le_trans hxq (hqo p hp)

theorem runMax_spec :
    ∀ (l : List Int) (o : Option Int) (x : Int), runMax o l = some x →
      (o = some x ∨ x ∈ l) ∧ (∀ y ∈ l, y ≤ x) ∧
      (∀ p, o = some p → p ≤ x) := by
  intro l
  induction l with
  | nil =>
      intro o x h
      simp only [runMax, List.foldl_nil] at h
      exact ⟨Or.inl h, by simp, fun p hp => by
        rw [h] at hp; simp only [Option.some.injEq] at hp; omega⟩
  | cons d rest ih =>
      intro o x h
      rw [runMax, List.foldl_cons, ← runMax] at h
      obtain ⟨hmem, hle, hprev⟩ := ih _ x h
      have hupd : ∀ q, (match o with
          | none => some d
          | some p => if p < d then some d else some p) = some q →
          (d ≤ q ∧ (o = some q ∨ q = d) ∧ ∀ p, o = some p → p ≤ q) := by
        intro q hq
        cases o with
        | none =>
            simp only [Option.some.injEq] at hq
            subst hq
            exact ⟨le_refl d, Or.inr rfl, by simp⟩
        | some p =>
            have hred : (match (some p : Option Int) with
                | none => some d
                | some p => if p < d then some d else some p) =
                if p < d then some d else some p := rfl
            rw [hred] at hq
            by_cases hlt : p < d
            · rw [if_pos hlt] at hq
              simp only [Option.some.injEq] at hq
              subst hq
              exact ⟨le_refl d, Or.inr rfl, fun r hr => by
                simp only [Option.some.injEq] at hr; omega⟩
            · rw [if_neg hlt] at hq
              simp only [Option.some.injEq] at hq
              subst hq
              exact ⟨by omega, Or.inl rfl, fun r hr => by
                simp only [Option.some.injEq] at hr; omega⟩
      refine ⟨?_, ?_, ?_⟩
      · rcases hmem with hx | hx
        · obtain ⟨-, hor, -⟩ := hupd x hx
          rcases hor with ho | hd
          · exact Or.inl ho
          · exact Or.inr (by rw [hd]; exact List.mem_cons_self d rest)
        · exact Or.inr (List.mem_cons_of_mem d hx)
      · intro y hy
        rcases List.mem_cons.mp hy with hyd | hyr
        · rw [hyd]
          rcases hmem with hx | hx
          · obtain ⟨hqd, -, -⟩ := hupd x hx
            exact hqd
          · cases hq : (match o with
              | none => some d
              | some p => if p < d then some d else some p) with
            | none =>
                exfalso
                cases o with
                | none => simp at hq
                | some p => by_cases hlt : p < d <;> simp [hlt] at hq
            | some q =>
                obtain ⟨hqd, -, -⟩ := hupd q hq
                exact le_trans hqd (hprev q hq)
        · exact hle y hyr
      · intro p hp
        cases hq : (match o with
            | none => some d
            | some p => if p < d then some d else some p) with
        | none =>
            exfalso
            cases o with
            | none => simp at hq
            | some r => by_cases hlt : r < d <;> simp [hlt] at hq
        | some q =>
            have hxq : q ≤ x := hprev q hq
            obtain ⟨-, -, hqo⟩ := hupd q hq
            exact le_trans (hqo p hp) hxq

/-- Counterexample to C9: a document whose only time interval has equal
start and end instants decodes successfully, and the resulting document has
`period_start = period_end`, violating the claimed strict inequality. -/
theorem period_ordering_counterexample :
    parse_day_ahead_prices evsEq = .ok docEq ∧
    ¬ docEq.period_start < docEq.period_end := by
  constructor
  · decide
  · decide

/-- C9 (amended): For every event stream on which the decode succeeds,
`period_start` is the minimum of all observed time-interval start instants
and `period_end` is the maximum of all observed end instants (running
extrema over the scan); the strict inequality `period_start < period_end`
is not enforced by the decoder. -/
theorem period_extrema (evs : List XmlEvent) (doc : PriceDocument)
    (h : parse_day_ahead_prices evs = .ok doc) :
    (doc.period_start ∈ collectStarts initState evs ∧
      ∀ t ∈ collectStarts initState evs, doc.period_start ≤ t) ∧
    (doc.period_end ∈ collectEnds initState evs ∧
      ∀ t ∈ collectEnds initState evs, t ≤ doc.period_end) := by
  obtain ⟨st, hscan, hfin⟩ := parse_ok_elim evs doc h
  obtain ⟨-, -, hps, hpe, -, -⟩ := finalize_ok st doc hfin
  have hmin : st.period_start = runMin initState.period_start (collectStarts initState evs) :=
    scanEvents_period_start evs initState st hscan
  have hmax : st.period_end = runMax initState.period_end (collectEnds initState evs) :=
    scanEvents_period_end evs initState st hscan
  rw [hps] at hmin
  rw [hpe] at hmax
  constructor
  · obtain ⟨hmem, hle, -⟩ := runMin_spec _ _ _ hmin.symm
    rcases hmem with hcontra | hmem
    · exact absurd hcontra (by simp [initState])
    · exact ⟨hmem, hle⟩
  · obtain ⟨hmem, hle, -⟩ := runMax_spec _ _ _ hmax.symm
    rcases hmem with hcontra | hmem
    · exact absurd hcontra (by simp [initState])
    · exact ⟨hmem, hle⟩

/-- Witness for the amended C9 at the concrete document `evsOK`. -/
theorem period_extrema_witness :
    parse_day_ahead_prices evsOK = .ok docOK ∧
    ((docOK.period_start ∈ collectStarts initState evsOK ∧
      ∀ t ∈ collectStarts initState evsOK, docOK.period_start ≤ t) ∧
    (docOK.period_end ∈ collectEnds initState evsOK ∧
      ∀ t ∈ collectEnds initState evsOK, t ≤ docOK.period_end)) :=
  ⟨by decide, period_extrema evsOK docOK (by decide)⟩

theorem parse_eq_scanFinalize (evs : List XmlEvent) :
    parse_day_ahead_prices evs = scanFinalize initState evs := rfl

theorem scanEvents_append (a b : List XmlEvent) :
    ∀ st, scanEvents st (a ++ b) =
      match scanEvents st a with
      | .ok st' => scanEvents st' b
      | .error e => .error e := by
  induction a with
  | nil => intro st; rfl
  | cons ev rest ih =>
      intro st
      rw [List.cons_append, scanEvents, scanEvents]
      cases stepEvent st ev with
      | ok st1 => exact ih st1
      | error e => rfl

theorem finalize_tag (st : ParserState) (t : String) :
    finalize { st with current_tag := t } = finalize st := rfl

theorem stepStart_tag (st : ParserState) (t name : String) :
    stepStart { st with current_tag := t } name = stepStart st name := rfl

theorem stepEnd_tag (st : ParserState) (t name : String) :
    stepEnd { st with current_tag := t } name = stepEnd st name := by
  simp only [stepEnd]
  split_ifs <;> try rfl
  split <;> rfl

theorem scanFinalize_tag_congr :
    ∀ (evs : List XmlEvent) (st : ParserState) (t1 t2 : String),
      tagInsensitive evs = true →
      scanFinalize { st with current_tag := t1 } evs =
      scanFinalize { st with current_tag := t2 } evs := by
  intro evs
  induction evs with
  | nil =>
      intro st t1 t2 _
      show finalize { st with current_tag := t1 } =
        finalize { st with current_tag := t2 }
      rw [finalize_tag st t1, finalize_tag st t2]
  | cons ev rest ih =>
      intro st t1 t2 hti
      cases ev with
      | start name =>
          show scanFinalize (stepStart { st with current_tag := t1 } name) rest =
            scanFinalize (stepStart { st with current_tag := t2 } name) rest
          rw [stepStart_tag st t1 name, stepStart_tag st t2 name]
      | endTag name =>
          show scanFinalize (stepEnd { st with current_tag := t1 } name) rest =
            scanFinalize (stepEnd { st with current_tag := t2 } name) rest
          rw [stepEnd_tag st t1 name, stepEnd_tag st t2 name]
      | text s => exact absurd hti (by simp [tagInsensitive])
      | badText msg => rfl
      | err msg => rfl
      | other =>
          show scanFinalize { st with current_tag := t1 } rest =
            scanFinalize { st with current_tag := t2 } rest
          exact ih st t1 t2 (by simpa [tagInsensitive] using hti)

theorem pointBlock_scan (st : ParserState) (posTxt priceTxt : String)
    (hip : st.in_point = false)
    (hcpos : st.current_position = none)
    (hcpr : st.current_price = none)
    (hmal : parseU32 (rustTrim posTxt) = none ∨
            parseF64 (rustTrim priceTxt) = none ∨
            st.current_period_start = none) :
    scanEvents st (pointBlock posTxt priceTxt) =
      .ok { st with current_tag := "" } := by
  obtain ⟨cur, res, ps, pe, pts, fts, fp, fpt, fti, cps, cpos, cpr, ct⟩ := st
  have hip' : fpt = false := hip
  have hcpos' : cpos = none := hcpos
  have hcpr' : cpr = none := hcpr
  subst hip' hcpos' hcpr'
  cases fp with
  | false =>
      by_cases hpt : rustTrim posTxt = "" <;> by_cases hpr : rustTrim priceTxt = "" <;>
        simp [pointBlock, scanEvents, stepEvent, stepStart, stepText, stepEnd, hpt, hpr]
  | true =>
      by_cases hpt : rustTrim posTxt = ""
      · by_cases hpr : rustTrim priceTxt = "" <;>
          simp [pointBlock, scanEvents, stepEvent, stepStart, stepText, stepEnd, hpt, hpr]
      · cases hu : parseU32 (rustTrim posTxt) with
        | none =>
            by_cases hpr : rustTrim priceTxt = "" <;>
              simp [pointBlock, scanEvents, stepEvent, stepStart, stepText, stepEnd,
                hpt, hpr, hu]
        | some a =>
            by_cases hpr : rustTrim priceTxt = ""
            · simp [pointBlock, scanEvents, stepEvent, stepStart, stepText, stepEnd,
                hpt, hpr, hu]
            · cases hf : parseF64 (rustTrim priceTxt) with
              | none =>
                  simp [pointBlock, scanEvents, stepEvent, stepStart, stepText, stepEnd,
                    hpt, hpr, hu, hf]
              | some b =>
                  rcases hmal with hm | hm | hm
                  · rw [hu] at hm; exact absurd hm (by simp)
                  · rw [hf] at hm; exact absurd hm (by simp)
                  · have hm' : cps = none := hm
                    subst hm'
                    simp [pointBlock, scanEvents, stepEvent, stepStart, stepText, stepEnd,
                      hpt, hpr, hu, hf]

/-- C7: A Point whose position or price text fails to parse, or whose
enclosing Period has no known anchor, contributes no sample and does not by
itself fail the decode: the decode of the stream with such a Point element
equals the decode of the stream with that Point removed.  The
well-formedness hypotheses say the Point appears where a child element of a
Period appears (the scan is not mid-Point, so the per-point registers are
clear) and that what follows the removed Point is an element boundary
rather than loose text. -/
theorem malformed_point_dropped (evs1 evs2 : List XmlEvent)
    (posTxt priceTxt : String) (st1 : ParserState)
    (hscan : scanEvents initState evs1 = .ok st1)
    (hip : st1.in_point = false)
    (hcpos : st1.current_position = none)
    (hcpr : st1.current_price = none)
    (hmal : parseU32 (rustTrim posTxt) = none ∨
            parseF64 (rustTrim priceTxt) = none ∨
            st1.current_period_start = none)
    (hnext : tagInsensitive evs2 = true) :
    parse_day_ahead_prices (evs1 ++ pointBlock posTxt priceTxt ++ evs2) =
    parse_day_ahead_prices (evs1 ++ evs2) := by
  rw [parse_eq_scanFinalize, parse_eq_scanFinalize]
  have h1 : scanEvents initState (evs1 ++ (pointBlock posTxt priceTxt ++ evs2)) =
      scanEvents { st1 with current_tag := "" } evs2 := by
    rw [scanEvents_append, hscan]
    show scanEvents st1 (pointBlock posTxt priceTxt ++ evs2) = _
    rw [scanEvents_append, pointBlock_scan st1 posTxt priceTxt hip hcpos hcpr hmal]
  have h2 : scanEvents initState (evs1 ++ evs2) = scanEvents st1 evs2 := by
    rw [scanEvents_append, hscan]
  have hL : scanFinalize initState (evs1 ++ pointBlock posTxt priceTxt ++ evs2) =
      scanFinalize { st1 with current_tag := "" } evs2 := by
    simp only [scanFinalize]
    rw [List.append_assoc, h1]
  have hR : scanFinalize initState (evs1 ++ evs2) =
      scanFinalize st1 evs2 := by
    simp only [scanFinalize]
    rw [h2]
  rw [hL, hR]
  have hcongr := scanFinalize_tag_congr evs2 st1 "" st1.current_tag hnext
  have heta : { st1 with current_tag := st1.current_tag } = st1 := rfl
  rw [heta] at hcongr
  exact hcongr

/-- Witness for C7: inserting a Point whose position text `"abc"` does not
parse leaves the decode unchanged. -/
theorem malformed_point_dropped_witness :
    scanEvents initState evs1w = .ok st1w ∧
    st1w.in_point = false ∧
    st1w.current_position = none ∧
    st1w.current_price = none ∧
    (parseU32 (rustTrim "abc") = none ∨
     parseF64 (rustTrim "50") = none ∨
     st1w.current_period_start = none) ∧
    tagInsensitive evs2w = true ∧
    parse_day_ahead_prices (evs1w ++ pointBlock "abc" "50" ++ evs2w) =
      parse_day_ahead_prices (evs1w ++ evs2w) :=
  ⟨by decide, by decide, by decide, by decide, Or.inl (by decide), by decide,
   malformed_point_dropped evs1w evs2w "abc" "50" st1w (by decide) (by decide)
     (by decide) (by decide) (Or.inl (by decide)) (by decide)⟩
